import Mathlib

/-!
Shallow embedding of the module-resolution caching layer implemented in
`packages/language-server/src/plugins/typescript/module-loader.ts`.

Strings are embedded as `List Char`. JavaScript `Map`s keyed by strings become
association lists (insertion order preserved, `set` replaces in place), and
JavaScript `Set`s become lists with membership-guarded insertion. `undefined`
as a cached value becomes `Option.none`, and a key that is absent is a lookup
that returns `none` at the outer `Option` layer, mirroring the source's
deliberate two-level distinction.

Helpers that the source imports from elsewhere in the repository
(`FileMap`/`FileSet`, `createGetCanonicalFileName`, `getLastPartOfPath`, the
svelte path classifier in `utils.ts` and the file-system adapter in
`svelte-sys.ts`) are modelled from the spec; their doc comments say so
explicitly.
-/

abbrev Str := List Char

/-- Lower-cases every character of a string, modelling `toFileNameLowerCase`. -/
def toLowerStr (s : Str) : Str := s.map Char.toLower

/-- Modelled from the spec: `createGetCanonicalFileName` (in `utils.ts`, not under
`src/`) returns the path unchanged when the host uses case-sensitive file names
and the lower-cased path otherwise ("case-normalized per host case-sensitivity
policy"). -/
def getCanonicalFileName (useCaseSensitiveFileNames : Bool) (s : Str) : Str :=
  if useCaseSensitiveFileNames then s else toLowerStr s

/-- Modelled from the spec: `FileSet.add` (in `fileCollection.ts`, not under
`src/`) stores the path case-normalized per the host case-sensitivity policy;
adding an element already present leaves the set unchanged. -/
def fsAdd (csfn : Bool) (s : List Str) (x : Str) : List Str :=
  if getCanonicalFileName csfn x ∈ s then s else s ++ [getCanonicalFileName csfn x]

/-- Modelled from the spec: `FileSet.has` tests membership of the
case-normalized path. -/
def fsHas (csfn : Bool) (s : List Str) (x : Str) : Bool :=
  decide (getCanonicalFileName csfn x ∈ s)

/-- Finds the first occurrence of `sep` in a string and returns the text before
it together with the text after it, or `none` when `sep` does not occur. This
is the scanning primitive behind JavaScript's `String.prototype.split`. -/
def breakOn (sep : Str) : Str → Option (Str × Str)
  | [] => none
  | c :: cs =>
    if sep.isPrefixOf (c :: cs) then some ([], (c :: cs).drop sep.length)
    else (breakOn sep cs).map (fun p => (c :: p.1, p.2))

/-- The reserved separator `':::'` of `module-loader.ts`. -/
def CACHE_KEY_SEPARATOR : Str := [':', ':', ':']

/-- The first two components of `key.split(CACHE_KEY_SEPARATOR)`: the source
reads the containing file with `.shift()` and the specifier with array
destructuring (defaulting to the empty string), so only the text before the
first separator occurrence and the text between the first and second
occurrences are ever used. -/
def splitKey (key : Str) : Str × Str :=
  match breakOn CACHE_KEY_SEPARATOR key with
  | none => (key, [])
  | some p =>
    match breakOn CACHE_KEY_SEPARATOR p.2 with
    | none => (p.1, p.2)
    | some q => (p.1, q.1)

/-- Modelled from the spec: `getLastPartOfPath` (in `utils.ts`, not under
`src/`) returns the last path segment, the portion after the final `'/'`. -/
def getLastPartOfPath (p : Str) : Str :=
  (p.reverse.takeWhile (fun c => c ≠ '/')).reverse

/-- JavaScript `String.prototype.includes`: substring containment. -/
def strIncludes (s sub : Str) : Bool := decide (sub <:+: s)

/-- Modelled from the spec and the source's own doc comment: a virtual svelte
file path disguises a `.svelte` file with the native `.ts` extension, so it
ends in `.svelte.ts` (`utils.ts` is not under `src/`). -/
def isVirtualSvelteFilePath (p : Str) : Bool :=
  ['.', 's', 'v', 'e', 'l', 't', 'e', '.', 't', 's'].isSuffixOf p

/-- Modelled from the spec: a (real) svelte file path ends in `.svelte`. -/
def isSvelteFilePath (p : Str) : Bool :=
  ['.', 's', 'v', 'e', 'l', 't', 'e'].isSuffixOf p

/-- Modelled from the spec: converting a virtual path to its real counterpart
strips the disguising native `.ts` extension (the last three characters). -/
def toRealSvelteFilePath (p : Str) : Str := p.take (p.length - 3)

/-- Modelled from the spec: virtual-extension normalization; a virtual
`.svelte.ts` path is rewritten to the real `.svelte` path, every other string
is returned unchanged. -/
def ensureRealSvelteFilePath (p : Str) : Str :=
  if isVirtualSvelteFilePath p then toRealSvelteFilePath p else p

/-- The composite cache key of `ModuleResolutionCache.getKey`:
`containingFile + CACHE_KEY_SEPARATOR + ensureRealSvelteFilePath(moduleName)`. -/
def getKey (moduleName containingFile : Str) : Str :=
  containingFile ++ CACHE_KEY_SEPARATOR ++ ensureRealSvelteFilePath moduleName

/-- Modelled from the spec: `FileMap` (in `fileCollection.ts`, not under
`src/`) stores its keys case-normalized per the host case-sensitivity policy,
so the key under which an entry is actually stored is the canonicalized
composite key. -/
def fmKey (csfn : Bool) (moduleName containingFile : Str) : Str :=
  getCanonicalFileName csfn (getKey moduleName containingFile)

/-- Association-list lookup with propositional key equality, modelling
`Map.get`/`Map.has` of the backing JavaScript map. -/
def fmLookup (l : List (Str × Option α)) (k : Str) : Option (Option α) :=
  match l with
  | [] => none
  | (k', v) :: rest => if k = k' then some v else fmLookup rest k

/-- Association-list update modelling `Map.set`: replaces the value of an
existing key in place (preserving insertion order) and appends otherwise. -/
def fmSet (l : List (Str × Option α)) (k : Str) (v : Option α) : List (Str × Option α) :=
  match l with
  | [] => [(k, v)]
  | (k', v') :: rest => if k = k' then (k, v) :: rest else (k', v') :: fmSet rest k v

/-- The resolved module record cached by the loader (`ts.ResolvedModule`,
extended with the `extension` field of `ts.ResolvedModuleFull`). -/
structure ResolvedModule where
  resolvedFileName : Str
  extension : Str
  isExternalLibraryImport : Bool
deriving DecidableEq, Repr

/-- The private state of the `ModuleResolutionCache` class: the map from
composite keys to cached outcomes (`none` is the confirmed-unresolved
sentinel) and the pending-invalidation set of containing files. -/
structure ModuleResolutionCache where
  cache : List (Str × Option ResolvedModule)
  pendingInvalidations : List Str
deriving DecidableEq, Repr

/-- `ModuleResolutionCache.get`: returns the cached outcome, flattening the
absent case and the confirmed-unresolved case into `none` exactly as the
source's return type `ts.ResolvedModule | undefined` does. -/
def ModuleResolutionCache.get (csfn : Bool) (c : ModuleResolutionCache)
    (moduleName containingFile : Str) : Option ResolvedModule :=
  match fmLookup c.cache (fmKey csfn moduleName containingFile) with
  | none => none
  | some v => v

/-- `ModuleResolutionCache.has`: key-presence test. -/
def ModuleResolutionCache.has (csfn : Bool) (c : ModuleResolutionCache)
    (moduleName containingFile : Str) : Bool :=
  (fmLookup c.cache (fmKey csfn moduleName containingFile)).isSome

/-- `ModuleResolutionCache.set`: caches a resolved module or the
confirmed-unresolved sentinel. -/
def ModuleResolutionCache.set (csfn : Bool) (c : ModuleResolutionCache)
    (moduleName containingFile : Str) (resolvedModule : Option ResolvedModule) :
    ModuleResolutionCache :=
  { c with cache := fmSet c.cache (fmKey csfn moduleName containingFile) resolvedModule }

/-- The per-entry test of `ModuleResolutionCache.delete`: the entry's value is
defined and its canonicalized resolved path equals the canonicalized argument. -/
def deleteMatches (csfn : Bool) (resolvedModuleName : Str)
    (kv : Str × Option ResolvedModule) : Bool :=
  match kv.2 with
  | some v => decide (getCanonicalFileName csfn v.resolvedFileName =
      getCanonicalFileName csfn resolvedModuleName)
  | none => false

/-- `ModuleResolutionCache.delete`: removes every entry whose defined value
resolved to the given path (after case normalization) and records each such
entry's containing-file key component in the pending-invalidation set. -/
def ModuleResolutionCache.delete (csfn : Bool) (c : ModuleResolutionCache)
    (resolvedModuleName : Str) : ModuleResolutionCache :=
  { cache := c.cache.filter (fun kv => !(deleteMatches csfn resolvedModuleName kv)),
    pendingInvalidations := c.cache.foldl
      (fun s kv => if deleteMatches csfn resolvedModuleName kv
        then fsAdd csfn s (splitKey kv.1).1 else s)
      c.pendingInvalidations }

/-- The stem computed by `deleteUnresolvedResolutionsFromCache`: the last
segment of the canonicalized path, truncated at its first `'.'`
(`getLastPartOfPath(...).split('.').shift() || ''`). -/
def unresolvedStem (csfn : Bool) (path : Str) : Str :=
  (getLastPartOfPath (getCanonicalFileName csfn path)).takeWhile (fun c => c ≠ '.')

/-- The per-entry test of `deleteUnresolvedResolutionsFromCache`: the value is
the confirmed-unresolved sentinel and the specifier component of the key
contains the stem. -/
def unresolvedMatches (stem : Str) (kv : Str × Option ResolvedModule) : Bool :=
  kv.2.isNone && strIncludes (splitKey kv.1).2 stem

/-- `ModuleResolutionCache.deleteUnresolvedResolutionsFromCache`: removes every
confirmed-unresolved entry whose specifier component contains the stem of the
changed path, recording each such entry's containing-file component in the
pending-invalidation set. -/
def ModuleResolutionCache.deleteUnresolvedResolutionsFromCache (csfn : Bool)
    (c : ModuleResolutionCache) (path : Str) : ModuleResolutionCache :=
  { cache := c.cache.filter (fun kv => !(unresolvedMatches (unresolvedStem csfn path) kv)),
    pendingInvalidations := c.cache.foldl
      (fun s kv => if unresolvedMatches (unresolvedStem csfn path) kv
        then fsAdd csfn s (splitKey kv.1).1 else s)
      c.pendingInvalidations }

/-- `ModuleResolutionCache.oneOfResolvedModuleChanged`: membership test against
the pending-invalidation set. -/
def ModuleResolutionCache.oneOfResolvedModuleChanged (csfn : Bool)
    (c : ModuleResolutionCache) (path : Str) : Bool :=
  fsHas csfn c.pendingInvalidations path

/-- `ModuleResolutionCache.clearPendingInvalidations`: empties the
pending-invalidation set. -/
def ModuleResolutionCache.clearPendingInvalidations (c : ModuleResolutionCache) :
    ModuleResolutionCache :=
  { c with pendingInvalidations := [] }

example : splitKey (getKey "./Widget".data "a.ts".data) = ("a.ts".data, "./Widget".data) := by decide

example : unresolvedStem false "/proj/Foo.native-ext".data = "foo".data := by decide

example : ensureRealSvelteFilePath "./A.svelte.ts".data = "./A.svelte".data := by decide

/-- A host resolution result (`ts.ResolvedModuleWithFailedLookupLocations`)
extended with the loader's piggy-backed `files` set of owning containing
files, exactly as `module-loader.ts` intersects the two types. -/
structure FailedLookupRecord where
  resolvedModule : Option ResolvedModule
  failedLookupLocations : Option (List Str)
  files : Option (List Str)
deriving DecidableEq, Repr

/-- The external collaborators of the loader. `host` is the opaque host
resolution algorithm `tsModule.resolveModuleName` (together with the
resolution host it consults); the resolution mode, compiler options and
project-reference redirection that the loader merely forwards are absorbed
into this oracle, and each call is modelled as returning a fresh result object
(`files := none`). `svelteFileExists` is modelled from the spec: the
`svelte-sys.ts` adapter's existence probe for real svelte files (not under
`src/`). `getExtensionOfSnapshot` is modelled from the spec: the composition
of the external snapshot provider with `getExtensionFromScriptKind`. -/
structure LoaderEnv where
  host : Str → Str → FailedLookupRecord
  svelteFileExists : Str → Bool
  getExtensionOfSnapshot : Str → Str

/-- Modelled from the spec: `svelteSys.getRealSveltePathIfExists` returns the
real counterpart of a virtual path when that real file exists and the original
path otherwise. -/
def getRealSveltePathIfExists (env : LoaderEnv) (p : Str) : Str :=
  if env.svelteFileExists (toRealSvelteFilePath p) then toRealSvelteFilePath p else p

/-- Modelled from the spec: a Virtual Path is a path bearing the disguising
native extension whose real counterpart exists. -/
def isVirtualPath (env : LoaderEnv) (p : Str) : Bool :=
  isVirtualSvelteFilePath p && env.svelteFileExists (toRealSvelteFilePath p)

/-- The mutable state closed over by `createSvelteModuleLoader`: the module
cache, the tracked failed-lookup records, and the two loader-level `FileSet`s.
The adapter's own existence cache and the two wholesale-cleared host caches
(`tsModuleCache`, `typeReferenceCache`) live behind the opaque host oracle and
are not part of this state. -/
structure LoaderState where
  moduleCache : ModuleResolutionCache
  resolutionWithFailedLookup : List FailedLookupRecord
  failedLocationInvalidated : List Str
  pendingFailedLocationCheck : List Str
deriving DecidableEq, Repr

/-- The loader state at session start: everything empty. -/
def LoaderState.empty : LoaderState :=
  { moduleCache := { cache := [], pendingInvalidations := [] },
    resolutionWithFailedLookup := [],
    failedLocationInvalidated := [],
    pendingFailedLocationCheck := [] }

/-- `resolveModuleName` of `module-loader.ts`: invokes the host algorithm and,
when the hit lands on a virtual svelte path whose real counterpart exists,
rebuilds the resolved record around the real path with the extension
reclassified from the document snapshot. -/
def resolveModuleName (env : LoaderEnv) (name containingFile : Str) : FailedLookupRecord :=
  match (env.host name containingFile).resolvedModule with
  | none => env.host name containingFile
  | some rm =>
    if isVirtualSvelteFilePath rm.resolvedFileName = false then env.host name containingFile
    else
      if isSvelteFilePath (getRealSveltePathIfExists env rm.resolvedFileName) = false then
        env.host name containingFile
      else
        { env.host name containingFile with
          resolvedModule := some
            { resolvedFileName := getRealSveltePathIfExists env rm.resolvedFileName,
              extension := env.getExtensionOfSnapshot (getRealSveltePathIfExists env rm.resolvedFileName),
              isExternalLibraryImport := rm.isExternalLibraryImport } }

/-- JavaScript `Set.add` on the plain (non-`FileSet`) `files` set, with
`??= new Set()` initialization: `none` behaves as the empty set. -/
def filesAdd (files : Option (List Str)) (containingFile : Str) : List Str :=
  if containingFile ∈ files.getD [] then files.getD [] else files.getD [] ++ [containingFile]

/-- `cacheResolutionWithFailedLookup`: records a resolution that probed at
least one failed candidate location, accumulating the containing file into the
record's `files` set before tracking it. -/
def cacheResolutionWithFailedLookup (st : LoaderState) (r : FailedLookupRecord)
    (containingFile : Str) : LoaderState :=
  match r.failedLookupLocations with
  | none => st
  | some locs =>
    if locs.length = 0 then st
    else
      { st with resolutionWithFailedLookup :=
          st.resolutionWithFailedLookup ++ [{ r with files := some (filesAdd r.files containingFile) }] }

/-- One iteration of the `moduleNames.map` body of `resolveModuleNames`:
cache-hit short-circuit, otherwise resolve, track failed lookups, and write
the cache. -/
def resolveOne (env : LoaderEnv) (csfn : Bool) (containingFile : Str)
    (st : LoaderState) (name : Str) : Option ResolvedModule × LoaderState :=
  if ModuleResolutionCache.has csfn st.moduleCache name containingFile then
    (ModuleResolutionCache.get csfn st.moduleCache name containingFile, st)
  else
    ((resolveModuleName env name containingFile).resolvedModule,
      { (cacheResolutionWithFailedLookup st (resolveModuleName env name containingFile) containingFile) with
        moduleCache := ModuleResolutionCache.set csfn
          (cacheResolutionWithFailedLookup st (resolveModuleName env name containingFile) containingFile).moduleCache
          name containingFile (resolveModuleName env name containingFile).resolvedModule })

/-- `resolveModuleNames`: resolves the batch left to right, threading the
caches through, and returns the outcomes in input order. -/
def resolveModuleNames (env : LoaderEnv) (csfn : Bool) (moduleNames : List Str)
    (containingFile : Str) (st : LoaderState) :
    List (Option ResolvedModule) × LoaderState :=
  match moduleNames with
  | [] => ([], st)
  | n :: rest =>
    ((resolveOne env csfn containingFile st n).1 ::
        (resolveModuleNames env csfn rest containingFile (resolveOne env csfn containingFile st n).2).1,
      (resolveModuleNames env csfn rest containingFile (resolveOne env csfn containingFile st n).2).2)

/-- Loader hook `deleteFromModuleCache` (the adapter's own existence-cache
eviction has no observable effect on the modelled state). -/
def deleteFromModuleCache (csfn : Bool) (st : LoaderState) (path : Str) : LoaderState :=
  { st with moduleCache := ModuleResolutionCache.delete csfn st.moduleCache path }

/-- Loader hook `deleteUnresolvedResolutionsFromCache`: evicts matching
unresolved entries and marks the path as pending a failed-location check
(the two host caches it also clears wholesale live behind the opaque oracle). -/
def deleteUnresolvedResolutionsFromCache (csfn : Bool) (st : LoaderState) (path : Str) :
    LoaderState :=
  { st with
      moduleCache := ModuleResolutionCache.deleteUnresolvedResolutionsFromCache csfn st.moduleCache path,
      pendingFailedLocationCheck := fsAdd csfn st.pendingFailedLocationCheck path }

/-- `mightHaveInvalidatedResolutions`: a containing file's resolutions may be
stale when it sits in the cache's pending-invalidation set or in the
failed-location-invalidated set. -/
def mightHaveInvalidatedResolutions (csfn : Bool) (st : LoaderState) (path : Str) : Bool :=
  ModuleResolutionCache.oneOfResolvedModuleChanged csfn st.moduleCache path ||
    fsHas csfn st.failedLocationInvalidated path

/-- `clearPendingInvalidations` (loader level): drains the cache's
pending-invalidation set and both loader-level sets. -/
def clearPendingInvalidations (st : LoaderState) : LoaderState :=
  { st with
      moduleCache := ModuleResolutionCache.clearPendingInvalidations st.moduleCache,
      failedLocationInvalidated := [],
      pendingFailedLocationCheck := [] }

/-- The body of the sweep in `invalidateFailedLocationResolution` for a single
tracked record: when the record's resolved module, `files` set and
failed-lookup locations are all defined and some probed location is pending a
failed-location check, the cache entries for the record's resolved path are
deleted and every owning containing file is marked invalidated (the source
`break`s after the first matching location, so the deletion happens once). -/
def invalidateStep (csfn : Bool) (pending : List Str)
    (acc : ModuleResolutionCache × List Str) (r : FailedLookupRecord) :
    ModuleResolutionCache × List Str :=
  match r.resolvedModule, r.files, r.failedLookupLocations with
  | some rm, some fs, some locs =>
    if locs.any (fun loc => fsHas csfn pending loc) then
      (ModuleResolutionCache.delete csfn acc.1 rm.resolvedFileName,
        fs.foldl (fun s f => fsAdd csfn s f) acc.2)
    else acc
  | _, _, _ => acc

/-- `invalidateFailedLocationResolution`: sweeps every tracked record and then
drains the pending failed-location set. -/
def invalidateFailedLocationResolution (csfn : Bool) (st : LoaderState) : LoaderState :=
  { st with
      moduleCache :=
        (st.resolutionWithFailedLookup.foldl
          (invalidateStep csfn st.pendingFailedLocationCheck)
          (st.moduleCache, st.failedLocationInvalidated)).1,
      failedLocationInvalidated :=
        (st.resolutionWithFailedLookup.foldl
          (invalidateStep csfn st.pendingFailedLocationCheck)
          (st.moduleCache, st.failedLocationInvalidated)).2,
      pendingFailedLocationCheck := [] }

section Helpers

theorem fmLookup_fmSet_self (l : List (Str × Option α)) (k : Str) (v : Option α) :
    fmLookup (fmSet l k v) k = some v := by
  induction l with
  | nil => simp [fmSet, fmLookup]
  | cons kv rest ih =>
    obtain ⟨k', v'⟩ := kv
    by_cases h : k = k'
    · simp [fmSet, h, fmLookup]
    · simp [fmSet, h, fmLookup, ih]

theorem fmLookup_fmSet_ne (l : List (Str × Option α)) (k k' : Str) (v : Option α)
    (h : k' ≠ k) : fmLookup (fmSet l k v) k' = fmLookup l k' := by
  induction l with
  | nil => simp [fmSet, fmLookup, h]
  | cons kv rest ih =>
    obtain ⟨k2, v2⟩ := kv
    by_cases h2 : k = k2
    · subst h2
      simp [fmSet, fmLookup, h]
    · by_cases h3 : k' = k2
      · simp [fmSet, h2, fmLookup, h3]
      · simp [fmSet, h2, fmLookup, h3, ih]

theorem mem_of_fmLookup {l : List (Str × Option α)} {k : Str} {v : Option α}
    (h : fmLookup l k = some v) : (k, v) ∈ l := by
  induction l with
  | nil => simp [fmLookup] at h
  | cons kv rest ih =>
    obtain ⟨k', v'⟩ := kv
    by_cases hk : k = k'
    · subst hk
      simp [fmLookup] at h
      simp [h]
    · simp [fmLookup, hk] at h
      exact List.mem_cons_of_mem _ (ih h)

theorem fmLookup_filter_none {l : List (Str × Option α)} {k : Str}
    (p : Str × Option α → Bool) (h : fmLookup l k = none) :
    fmLookup (l.filter p) k = none := by
  induction l with
  | nil => simp [fmLookup]
  | cons kv rest ih =>
    obtain ⟨k', v'⟩ := kv
    by_cases hk : k = k'
    · simp [fmLookup, hk] at h
    · simp only [fmLookup, if_neg hk] at h
      by_cases hp : p (k', v')
      · simp only [List.filter_cons, hp, fmLookup, if_neg hk]
        exact ih h
      · simp only [List.filter_cons, hp]
        exact ih h

theorem fmSet_eq_append_of_lookup_none {l : List (Str × Option α)} {k : Str}
    (v : Option α) (h : fmLookup l k = none) : fmSet l k v = l ++ [(k, v)] := by
  induction l with
  | nil => simp [fmSet]
  | cons kv rest ih =>
    obtain ⟨k', v'⟩ := kv
    by_cases hk : k = k'
    · simp [fmLookup, hk] at h
    · simp only [fmLookup, if_neg hk] at h
      simp [fmSet, hk, ih h]

theorem mem_fmSet {l : List (Str × Option α)} {k : Str} {v : Option α}
    {kv : Str × Option α} (h : kv ∈ fmSet l k v) : kv ∈ l ∨ kv = (k, v) := by
  induction l with
  | nil => simp [fmSet] at h; simp [h]
  | cons kv0 rest ih =>
    obtain ⟨k', v'⟩ := kv0
    by_cases hk : k = k'
    · simp only [fmSet, if_pos hk] at h
      rcases List.mem_cons.1 h with h1 | h1
      · right; exact h1
      · left; exact List.mem_cons_of_mem _ h1
    · simp only [fmSet, if_neg hk] at h
      rcases List.mem_cons.1 h with h1 | h1
      · left; exact h1 ▸ List.mem_cons_self _ _
      · rcases ih h1 with h2 | h2
        · left; exact List.mem_cons_of_mem _ h2
        · right; exact h2

theorem mem_fsAdd_self (csfn : Bool) (s : List Str) (x : Str) :
    getCanonicalFileName csfn x ∈ fsAdd csfn s x := by
  unfold fsAdd
  split
  · assumption
  · simp

theorem mem_fsAdd_of_mem (csfn : Bool) (s : List Str) (x : Str) {y : Str}
    (h : y ∈ s) : y ∈ fsAdd csfn s x := by
  unfold fsAdd
  split
  · exact h
  · exact List.mem_append_left _ h

theorem mem_of_mem_fsAdd {csfn : Bool} {s : List Str} {x y : Str}
    (h : y ∈ fsAdd csfn s x) : y ∈ s ∨ y = getCanonicalFileName csfn x := by
  unfold fsAdd at h
  split at h
  · exact Or.inl h
  · rcases List.mem_append.1 h with h1 | h1
    · exact Or.inl h1
    · right; simpa using h1

end Helpers

section SeparatorLemmas

theorem sep_isPrefixOf_cons {c : Char} {cs : Str} (hc : c ≠ ':') :
    CACHE_KEY_SEPARATOR.isPrefixOf (c :: cs) = false := by
  have : (':' == c) = false := by
    simp only [beq_eq_false_iff_ne]
    exact fun e => hc e.symm
  simp [CACHE_KEY_SEPARATOR, List.isPrefixOf, this]

theorem breakOn_sep_none {s : Str} (h : ':' ∉ s) :
    breakOn CACHE_KEY_SEPARATOR s = none := by
  induction s with
  | nil => rfl
  | cons c cs ih =>
    have hc : c ≠ ':' := fun e => h (e ▸ List.mem_cons_self _ _)
    have hcs : ':' ∉ cs := fun m => h (List.mem_cons_of_mem _ m)
    unfold breakOn
    rw [sep_isPrefixOf_cons hc]
    simp [ih hcs]

theorem breakOn_sep_append {a b : Str} (h : ':' ∉ a) :
    breakOn CACHE_KEY_SEPARATOR (a ++ CACHE_KEY_SEPARATOR ++ b) = some (a, b) := by
  induction a with
  | nil =>
    show breakOn CACHE_KEY_SEPARATOR (':' :: ':' :: ':' :: b) = some ([], b)
    unfold breakOn
    rw [if_pos]
    · rfl
    · simp [CACHE_KEY_SEPARATOR, List.isPrefixOf]
  | cons c cs ih =>
    have hc : c ≠ ':' := fun e => h (e ▸ List.mem_cons_self _ _)
    have hcs : ':' ∉ cs := fun m => h (List.mem_cons_of_mem _ m)
    show breakOn CACHE_KEY_SEPARATOR (c :: (cs ++ CACHE_KEY_SEPARATOR ++ b)) = some (c :: cs, b)
    unfold breakOn
    rw [sep_isPrefixOf_cons hc, if_neg (by simp), ih hcs]
    rfl

theorem splitKey_append {a b : Str} (ha : ':' ∉ a) (hb : ':' ∉ b) :
    splitKey (a ++ CACHE_KEY_SEPARATOR ++ b) = (a, b) := by
  unfold splitKey
  rw [breakOn_sep_append ha]
  simp [breakOn_sep_none hb]

theorem getCanonicalFileName_append (csfn : Bool) (a b : Str) :
    getCanonicalFileName csfn (a ++ b) =
      getCanonicalFileName csfn a ++ getCanonicalFileName csfn b := by
  unfold getCanonicalFileName toLowerStr
  split <;> simp

theorem getCanonicalFileName_sep (csfn : Bool) :
    getCanonicalFileName csfn CACHE_KEY_SEPARATOR = CACHE_KEY_SEPARATOR := by
  cases csfn <;> decide

theorem fmKey_decompose (csfn : Bool) (m cf : Str) :
    fmKey csfn m cf = getCanonicalFileName csfn cf ++ CACHE_KEY_SEPARATOR ++
      getCanonicalFileName csfn (ensureRealSvelteFilePath m) := by
  unfold fmKey getKey
  rw [getCanonicalFileName_append, getCanonicalFileName_append, getCanonicalFileName_sep]

end SeparatorLemmas

section VirtualPathLemmas

theorem suffix_getLast? {s p : Str} (h : s.isSuffixOf p = true) (hne : s ≠ []) :
    p.getLast? = s.getLast? := by
  rw [List.isSuffixOf_iff_suffix] at h
  obtain ⟨t, rfl⟩ := h
  rw [List.getLast?_append]
  cases hs : s.getLast? with
  | none => exact absurd (List.getLast?_eq_none_iff.1 hs) hne
  | some c => rfl

theorem isVirtual_not_isSvelte {p : Str} (h : isVirtualSvelteFilePath p = true) :
    isSvelteFilePath p = false := by
  cases hsv : isSvelteFilePath p with
  | false => rfl
  | true =>
    exfalso
    unfold isVirtualSvelteFilePath at h
    unfold isSvelteFilePath at hsv
    have h1 := suffix_getLast? h (by decide)
    have h2 := suffix_getLast? hsv (by decide)
    rw [h1] at h2
    exact absurd h2 (by decide)

theorem isSvelte_not_isVirtual {p : Str} (h : isSvelteFilePath p = true) :
    isVirtualSvelteFilePath p = false := by
  cases hv : isVirtualSvelteFilePath p with
  | false => rfl
  | true => rw [isVirtual_not_isSvelte hv] at h; exact absurd h (by decide)

theorem isSvelteFilePath_toReal {p : Str} (h : isVirtualSvelteFilePath p = true) :
    isSvelteFilePath (toRealSvelteFilePath p) = true := by
  unfold isVirtualSvelteFilePath at h
  rw [List.isSuffixOf_iff_suffix] at h
  obtain ⟨t, ht⟩ := h
  have hp : p = (t ++ ['.', 's', 'v', 'e', 'l', 't', 'e']) ++ ['.', 't', 's'] := by
    rw [← ht]
    simp
  have hlen : ((t ++ ['.', 's', 'v', 'e', 'l', 't', 'e']) ++ ['.', 't', 's']).length - 3
      = (t ++ ['.', 's', 'v', 'e', 'l', 't', 'e']).length := by
    simp [List.length_append]
  unfold toRealSvelteFilePath
  rw [hp, hlen, List.take_left]
  unfold isSvelteFilePath
  rw [List.isSuffixOf_iff_suffix]
  exact ⟨t, rfl⟩

end VirtualPathLemmas

theorem bool_true_of_not_false {b : Bool} (h : ¬ b = false) : b = true := by
  cases b
  · exact absurd rfl h
  · rfl

theorem resolveModuleName_not_virtualPath (env : LoaderEnv) (name cf : Str)
    {rm : ResolvedModule}
    (h : (resolveModuleName env name cf).resolvedModule = some rm) :
    isVirtualPath env rm.resolvedFileName = false := by
  unfold resolveModuleName at h
  split at h
  case _ heq =>
    rw [heq] at h
    exact Option.noConfusion h
  case _ rm0 heq =>
    split at h
    case isTrue hv =>
      rw [heq] at h
      cases Option.some.inj h
      unfold isVirtualPath
      rw [hv, Bool.false_and]
    case isFalse hv =>
      have hv' : isVirtualSvelteFilePath rm0.resolvedFileName = true :=
        bool_true_of_not_false hv
      split at h
      case isTrue hs =>
        rw [heq] at h
        cases Option.some.inj h
        by_cases he : env.svelteFileExists (toRealSvelteFilePath rm.resolvedFileName) = true
        · exfalso
          unfold getRealSveltePathIfExists at hs
          rw [if_pos he, isSvelteFilePath_toReal hv'] at hs
          exact Bool.noConfusion hs
        · have he' : env.svelteFileExists (toRealSvelteFilePath rm.resolvedFileName) = false := by
            cases hb : env.svelteFileExists (toRealSvelteFilePath rm.resolvedFileName)
            · rfl
            · exact absurd hb he
          unfold isVirtualPath
          rw [he', Bool.and_false]
      case isFalse hs =>
        have hs' : isSvelteFilePath (getRealSveltePathIfExists env rm0.resolvedFileName) = true :=
          bool_true_of_not_false hs
        cases Option.some.inj h
        show isVirtualPath env (getRealSveltePathIfExists env rm0.resolvedFileName) = false
        unfold isVirtualPath
        rw [isSvelte_not_isVirtual hs', Bool.false_and]

section LoaderLemmas

theorem cacheResolutionWithFailedLookup_moduleCache (st : LoaderState)
    (r : FailedLookupRecord) (cf : Str) :
    (cacheResolutionWithFailedLookup st r cf).moduleCache = st.moduleCache := by
  unfold cacheResolutionWithFailedLookup
  split
  · rfl
  · split
    · rfl
    · rfl

theorem cacheResolutionWithFailedLookup_pendingFailedLocationCheck (st : LoaderState)
    (r : FailedLookupRecord) (cf : Str) :
    (cacheResolutionWithFailedLookup st r cf).pendingFailedLocationCheck =
      st.pendingFailedLocationCheck := by
  unfold cacheResolutionWithFailedLookup
  split
  · rfl
  · split
    · rfl
    · rfl

theorem cacheResolutionWithFailedLookup_failedLocationInvalidated (st : LoaderState)
    (r : FailedLookupRecord) (cf : Str) :
    (cacheResolutionWithFailedLookup st r cf).failedLocationInvalidated =
      st.failedLocationInvalidated := by
  unfold cacheResolutionWithFailedLookup
  split
  · rfl
  · split
    · rfl
    · rfl

theorem resolveModuleName_of_host_none (env : LoaderEnv) (m cf : Str)
    (h : (env.host m cf).resolvedModule = none) :
    resolveModuleName env m cf = env.host m cf := by
  unfold resolveModuleName
  rw [h]

theorem resolveOne_of_miss (env : LoaderEnv) (csfn : Bool) (cf : Str)
    (st : LoaderState) (m : Str)
    (hmiss : ModuleResolutionCache.has csfn st.moduleCache m cf = false) :
    (resolveOne env csfn cf st m).2.moduleCache =
      ModuleResolutionCache.set csfn st.moduleCache m cf
        (resolveModuleName env m cf).resolvedModule := by
  unfold resolveOne
  rw [if_neg (by simp [hmiss])]
  simp [cacheResolutionWithFailedLookup_moduleCache]

theorem resolveModuleNames_single (env : LoaderEnv) (csfn : Bool) (cf : Str)
    (st : LoaderState) (m : Str) :
    resolveModuleNames env csfn [m] cf st =
      ([(resolveOne env csfn cf st m).1], (resolveOne env csfn cf st m).2) := rfl

end LoaderLemmas

/-- An environment whose host resolves nothing and reports no probed
locations, used to instantiate hypothetical theorems at concrete inputs. -/
def trivialEnv : LoaderEnv :=
  { host := fun _ _ => { resolvedModule := none, failedLookupLocations := none, files := none },
    svelteFileExists := fun _ => false,
    getExtensionOfSnapshot := fun _ => [] }

/-- C7: after a resolution attempt that the host reports as unresolved, the
outcome is cached as a first-class value: `has` returns true and `get`
returns the unresolved sentinel `none` for that pair, while the presence
status of every other key is untouched — so a confirmed-unresolved key is
distinguishable from a key that was never queried, for which `has` stays
false. -/
theorem C7_unresolved_cached_first_class (env : LoaderEnv) (csfn : Bool)
    (st : LoaderState) (m cf : Str)
    (hmiss : ModuleResolutionCache.has csfn st.moduleCache m cf = false)
    (hunres : (env.host m cf).resolvedModule = none) :
    ModuleResolutionCache.has csfn (resolveModuleNames env csfn [m] cf st).2.moduleCache m cf = true ∧
    ModuleResolutionCache.get csfn (resolveModuleNames env csfn [m] cf st).2.moduleCache m cf = none ∧
    ∀ m2 cf2 : Str, fmKey csfn m2 cf2 ≠ fmKey csfn m cf →
      ModuleResolutionCache.has csfn (resolveModuleNames env csfn [m] cf st).2.moduleCache m2 cf2 =
        ModuleResolutionCache.has csfn st.moduleCache m2 cf2 := by
  rw [resolveModuleNames_single]
  have hmc := resolveOne_of_miss env csfn cf st m hmiss
  have hrm : (resolveModuleName env m cf).resolvedModule = none := by
    rw [resolveModuleName_of_host_none env m cf hunres, hunres]
  refine ⟨?_, ?_, ?_⟩
  · show ModuleResolutionCache.has csfn (resolveOne env csfn cf st m).2.moduleCache m cf = true
    rw [hmc]
    unfold ModuleResolutionCache.has ModuleResolutionCache.set
    simp [fmLookup_fmSet_self]
  · show ModuleResolutionCache.get csfn (resolveOne env csfn cf st m).2.moduleCache m cf = none
    rw [hmc, hrm]
    unfold ModuleResolutionCache.get ModuleResolutionCache.set
    simp [fmLookup_fmSet_self]
  · intro m2 cf2 hne
    show ModuleResolutionCache.has csfn (resolveOne env csfn cf st m).2.moduleCache m2 cf2 = _
    rw [hmc]
    unfold ModuleResolutionCache.has ModuleResolutionCache.set
    simp [fmLookup_fmSet_ne _ _ _ _ hne]

/-- Witness for C7 at a concrete input: the empty cache does not have the key
(never queried), and after the failed resolution attempt the conclusion holds. -/
theorem C7_unresolved_cached_first_class_witness :
    ModuleResolutionCache.has false LoaderState.empty.moduleCache "./foo".data "a.ts".data = false ∧
    (ModuleResolutionCache.has false (resolveModuleNames trivialEnv false ["./foo".data] "a.ts".data LoaderState.empty).2.moduleCache "./foo".data "a.ts".data = true ∧
     ModuleResolutionCache.get false (resolveModuleNames trivialEnv false ["./foo".data] "a.ts".data LoaderState.empty).2.moduleCache "./foo".data "a.ts".data = none ∧
     ∀ m2 cf2 : Str, fmKey false m2 cf2 ≠ fmKey false "./foo".data "a.ts".data →
       ModuleResolutionCache.has false (resolveModuleNames trivialEnv false ["./foo".data] "a.ts".data LoaderState.empty).2.moduleCache m2 cf2 =
         ModuleResolutionCache.has false LoaderState.empty.moduleCache m2 cf2) :=
  ⟨rfl, C7_unresolved_cached_first_class trivialEnv false LoaderState.empty "./foo".data "a.ts".data rfl rfl⟩

section FoldLemmas

theorem foldl_fsAdd_preserve {β : Type} (csfn : Bool) (q : β → Bool) (g : β → Str)
    (l : List β) (s : List Str) {x : Str} (hx : x ∈ s) :
    x ∈ l.foldl (fun acc kv => if q kv then fsAdd csfn acc (g kv) else acc) s := by
  induction l generalizing s with
  | nil => exact hx
  | cons kv rest ih =>
    simp only [List.foldl_cons]
    by_cases hq : q kv
    · rw [if_pos hq]
      exact ih _ (mem_fsAdd_of_mem _ _ _ hx)
    · rw [if_neg hq]
      exact ih _ hx

theorem foldl_fsAdd_mem {β : Type} (csfn : Bool) (q : β → Bool) (g : β → Str)
    (l : List β) (s : List Str) {kv : β} (hkv : kv ∈ l) (hq : q kv = true) :
    getCanonicalFileName csfn (g kv) ∈
      l.foldl (fun acc kv => if q kv then fsAdd csfn acc (g kv) else acc) s := by
  induction l generalizing s with
  | nil => cases hkv
  | cons kv0 rest ih =>
    simp only [List.foldl_cons]
    rcases List.mem_cons.1 hkv with h1 | h1
    · subst h1
      rw [if_pos hq]
      exact foldl_fsAdd_preserve csfn q g rest _ (mem_fsAdd_self csfn _ _)
    · by_cases hq0 : q kv0
      · rw [if_pos hq0]
        exact ih _ h1
      · rw [if_neg hq0]
        exact ih _ h1

theorem mem_foldl_fsAdd {β : Type} {csfn : Bool} {q : β → Bool} {g : β → Str}
    {l : List β} {s : List Str} {x : Str}
    (h : x ∈ l.foldl (fun acc kv => if q kv then fsAdd csfn acc (g kv) else acc) s) :
    x ∈ s ∨ ∃ kv, kv ∈ l ∧ q kv = true ∧ x = getCanonicalFileName csfn (g kv) := by
  induction l generalizing s with
  | nil => exact Or.inl h
  | cons kv0 rest ih =>
    simp only [List.foldl_cons] at h
    by_cases hq0 : q kv0
    · rw [if_pos hq0] at h
      rcases ih h with h1 | ⟨kv, hkv, hqq, hx⟩
      · rcases mem_of_mem_fsAdd h1 with h2 | h2
        · exact Or.inl h2
        · exact Or.inr ⟨kv0, List.mem_cons_self _ _, hq0, h2⟩
      · exact Or.inr ⟨kv, List.mem_cons_of_mem _ hkv, hqq, hx⟩
    · rw [if_neg hq0] at h
      rcases ih h with h1 | ⟨kv, hkv, hqq, hx⟩
      · exact Or.inl h1
      · exact Or.inr ⟨kv, List.mem_cons_of_mem _ hkv, hqq, hx⟩

theorem foldl_fsAdd_plain_preserve (csfn : Bool) (l : List Str) (s : List Str)
    {x : Str} (hx : x ∈ s) : x ∈ l.foldl (fun acc f => fsAdd csfn acc f) s := by
  induction l generalizing s with
  | nil => exact hx
  | cons f rest ih =>
    simp only [List.foldl_cons]
    exact ih _ (mem_fsAdd_of_mem _ _ _ hx)

theorem foldl_fsAdd_plain_mem (csfn : Bool) (l : List Str) (s : List Str)
    {f : Str} (hf : f ∈ l) :
    getCanonicalFileName csfn f ∈ l.foldl (fun acc f => fsAdd csfn acc f) s := by
  induction l generalizing s with
  | nil => cases hf
  | cons f0 rest ih =>
    simp only [List.foldl_cons]
    rcases List.mem_cons.1 hf with h1 | h1
    · subst h1
      exact foldl_fsAdd_plain_preserve csfn rest _ (mem_fsAdd_self csfn _ _)
    · exact ih _ h1

end FoldLemmas

section DeleteLemmas

theorem mem_delete_cache {csfn : Bool} {c : ModuleResolutionCache} {p : Str}
    {kv : Str × Option ResolvedModule}
    (h : kv ∈ (ModuleResolutionCache.delete csfn c p).cache) :
    kv ∈ c.cache ∧ deleteMatches csfn p kv = false := by
  unfold ModuleResolutionCache.delete at h
  have h2 := List.mem_filter.1 h
  exact ⟨h2.1, by simpa using h2.2⟩

theorem delete_pending_of_match {csfn : Bool} {c : ModuleResolutionCache} {p : Str}
    {kv : Str × Option ResolvedModule}
    (hmem : kv ∈ c.cache) (hmatch : deleteMatches csfn p kv = true) :
    getCanonicalFileName csfn (splitKey kv.1).1 ∈
      (ModuleResolutionCache.delete csfn c p).pendingInvalidations := by
  unfold ModuleResolutionCache.delete
  exact foldl_fsAdd_mem csfn _ _ _ _ hmem hmatch

theorem delete_pending_sources {csfn : Bool} {c : ModuleResolutionCache} {p : Str}
    {x : Str} (h : x ∈ (ModuleResolutionCache.delete csfn c p).pendingInvalidations) :
    x ∈ c.pendingInvalidations ∨ ∃ kv, kv ∈ c.cache ∧ deleteMatches csfn p kv = true ∧
      x = getCanonicalFileName csfn (splitKey kv.1).1 := by
  unfold ModuleResolutionCache.delete at h
  exact mem_foldl_fsAdd h

theorem fmLookup_delete_none {csfn : Bool} {c : ModuleResolutionCache} {p k : Str}
    (h : fmLookup c.cache k = none) :
    fmLookup (ModuleResolutionCache.delete csfn c p).cache k = none := by
  unfold ModuleResolutionCache.delete
  exact fmLookup_filter_none _ h

end DeleteLemmas

/-- C5: deleting by resolved path `P` removes every entry whose defined record
resolved (up to case normalization) to `P`, records that entry's
containing-file key component in the pending-invalidation set, and from then
on `mightHaveInvalidatedResolutions` reports that containing file as
invalidated — until `clearPendingInvalidations()` is called, after which it
reports false for every path. -/
theorem C5_delete_then_invalidated (csfn : Bool) (st : LoaderState) (P key : Str)
    (rm : ResolvedModule)
    (hmem : (key, some rm) ∈ st.moduleCache.cache)
    (hmatch : getCanonicalFileName csfn rm.resolvedFileName = getCanonicalFileName csfn P) :
    (key, some rm) ∉ (deleteFromModuleCache csfn st P).moduleCache.cache ∧
    getCanonicalFileName csfn (splitKey key).1 ∈
      (deleteFromModuleCache csfn st P).moduleCache.pendingInvalidations ∧
    mightHaveInvalidatedResolutions csfn (deleteFromModuleCache csfn st P) (splitKey key).1 = true ∧
    ∀ q : Str, mightHaveInvalidatedResolutions csfn
      (clearPendingInvalidations (deleteFromModuleCache csfn st P)) q = false := by
  have hdm : deleteMatches csfn P (key, some rm) = true := by
    unfold deleteMatches
    simpa using hmatch
  refine ⟨?_, ?_, ?_, ?_⟩
  · intro hmem2
    have h2 := mem_delete_cache hmem2
    rw [hdm] at h2
    exact Bool.noConfusion h2.2
  · exact delete_pending_of_match hmem hdm
  · have h3 : getCanonicalFileName csfn (splitKey key).1 ∈
        (ModuleResolutionCache.delete csfn st.moduleCache P).pendingInvalidations :=
      delete_pending_of_match hmem hdm
    unfold mightHaveInvalidatedResolutions ModuleResolutionCache.oneOfResolvedModuleChanged fsHas
    simp only [Bool.or_eq_true, decide_eq_true_eq]
    exact Or.inl h3
  · intro q
    unfold clearPendingInvalidations ModuleResolutionCache.clearPendingInvalidations
    unfold mightHaveInvalidatedResolutions ModuleResolutionCache.oneOfResolvedModuleChanged fsHas
    simp

/-- A one-entry loader state used to instantiate the cache-invalidation
theorems at concrete inputs. -/
def oneEntryState : LoaderState :=
  { moduleCache :=
      { cache := [("a.ts:::./x".data, some ⟨"/p/x.ts".data, ".ts".data, false⟩)],
        pendingInvalidations := [] },
    resolutionWithFailedLookup := [],
    failedLocationInvalidated := [],
    pendingFailedLocationCheck := [] }

/-- Witness for C5 at a concrete input (a case-insensitive host, so the path
only matches after case normalization). -/
theorem C5_delete_then_invalidated_witness :
    ("a.ts:::./x".data, some (⟨"/p/x.ts".data, ".ts".data, false⟩ : ResolvedModule)) ∈
      oneEntryState.moduleCache.cache ∧
    (("a.ts:::./x".data, some (⟨"/p/x.ts".data, ".ts".data, false⟩ : ResolvedModule)) ∉
      (deleteFromModuleCache false oneEntryState "/p/X.TS".data).moduleCache.cache ∧
    getCanonicalFileName false (splitKey "a.ts:::./x".data).1 ∈
      (deleteFromModuleCache false oneEntryState "/p/X.TS".data).moduleCache.pendingInvalidations ∧
    mightHaveInvalidatedResolutions false (deleteFromModuleCache false oneEntryState "/p/X.TS".data)
      (splitKey "a.ts:::./x".data).1 = true ∧
    ∀ q : Str, mightHaveInvalidatedResolutions false
      (clearPendingInvalidations (deleteFromModuleCache false oneEntryState "/p/X.TS".data)) q = false) :=
  ⟨by decide, C5_delete_then_invalidated false oneEntryState "/p/X.TS".data "a.ts:::./x".data
    ⟨"/p/x.ts".data, ".ts".data, false⟩ (by decide) (by decide)⟩

/-- C9: `delete` is a resolved-entries-only operation: every
confirmed-unresolved (sentinel-valued) entry survives unchanged, and every
path in the resulting pending-invalidation set either was already pending or
stems from a defined record whose resolved path matched — never from an
unresolved entry. -/
theorem C9_delete_spares_unresolved (csfn : Bool) (c : ModuleResolutionCache)
    (P key : Str)
    (hmem : (key, (none : Option ResolvedModule)) ∈ c.cache) :
    (key, (none : Option ResolvedModule)) ∈ (ModuleResolutionCache.delete csfn c P).cache ∧
    ∀ x : Str, x ∈ (ModuleResolutionCache.delete csfn c P).pendingInvalidations →
      x ∈ c.pendingInvalidations ∨ ∃ k : Str, ∃ rm : ResolvedModule,
        (k, some rm) ∈ c.cache ∧
        getCanonicalFileName csfn rm.resolvedFileName = getCanonicalFileName csfn P ∧
        x = getCanonicalFileName csfn (splitKey k).1 := by
  constructor
  · unfold ModuleResolutionCache.delete
    refine List.mem_filter.2 ⟨hmem, ?_⟩
    simp [deleteMatches]
  · intro x hx
    rcases delete_pending_sources hx with h1 | ⟨kv, hkv, hq, hxeq⟩
    · exact Or.inl h1
    · right
      obtain ⟨k, v⟩ := kv
      cases v with
      | none => simp [deleteMatches] at hq
      | some rm =>
        refine ⟨k, rm, hkv, ?_, hxeq⟩
        unfold deleteMatches at hq
        simpa using hq

/-- Witness for C9 at a concrete input: a cache holding one unresolved entry
and one resolved entry; deleting the resolved path spares the unresolved
entry. -/
theorem C9_delete_spares_unresolved_witness :
    ("a.ts:::./u".data, (none : Option ResolvedModule)) ∈
      ({ cache := [("a.ts:::./u".data, (none : Option ResolvedModule)),
                   ("a.ts:::./x".data, some ⟨"/p/x.ts".data, ".ts".data, false⟩)],
         pendingInvalidations := [] } : ModuleResolutionCache).cache ∧
    (("a.ts:::./u".data, (none : Option ResolvedModule)) ∈
      (ModuleResolutionCache.delete false
        { cache := [("a.ts:::./u".data, (none : Option ResolvedModule)),
                    ("a.ts:::./x".data, some ⟨"/p/x.ts".data, ".ts".data, false⟩)],
          pendingInvalidations := [] } "/p/x.ts".data).cache ∧
    ∀ x : Str, x ∈ (ModuleResolutionCache.delete false
        { cache := [("a.ts:::./u".data, (none : Option ResolvedModule)),
                    ("a.ts:::./x".data, some ⟨"/p/x.ts".data, ".ts".data, false⟩)],
          pendingInvalidations := [] } "/p/x.ts".data).pendingInvalidations →
      x ∈ ({ cache := [("a.ts:::./u".data, (none : Option ResolvedModule)),
                       ("a.ts:::./x".data, some ⟨"/p/x.ts".data, ".ts".data, false⟩)],
             pendingInvalidations := [] } : ModuleResolutionCache).pendingInvalidations ∨
      ∃ k : Str, ∃ rm : ResolvedModule,
        (k, some rm) ∈ ({ cache := [("a.ts:::./u".data, (none : Option ResolvedModule)),
                                    ("a.ts:::./x".data, some ⟨"/p/x.ts".data, ".ts".data, false⟩)],
                          pendingInvalidations := [] } : ModuleResolutionCache).cache ∧
        getCanonicalFileName false rm.resolvedFileName = getCanonicalFileName false "/p/x.ts".data ∧
        x = getCanonicalFileName false (splitKey k).1) :=
  ⟨by decide, C9_delete_spares_unresolved false
    { cache := [("a.ts:::./u".data, (none : Option ResolvedModule)),
                ("a.ts:::./x".data, some ⟨"/p/x.ts".data, ".ts".data, false⟩)],
      pendingInvalidations := [] } "/p/x.ts".data "a.ts:::./u".data (by decide)⟩

/-- C6: `deleteUnresolvedResolutionsFromCache(path)` computes the stem of the
changed path (last segment of the canonicalized path, truncated at its first
dot) and removes exactly the entries whose value is the confirmed-unresolved
sentinel and whose specifier component contains that stem — every other entry
(unresolved without the stem, or resolved) stays — while adding each removed
entry's containing-file component to the pending-invalidation set. -/
theorem C6_unresolved_stem_eviction (csfn : Bool) (c : ModuleResolutionCache) (path : Str) :
    (∀ kv : Str × Option ResolvedModule,
      kv ∈ (ModuleResolutionCache.deleteUnresolvedResolutionsFromCache csfn c path).cache ↔
        kv ∈ c.cache ∧ unresolvedMatches (unresolvedStem csfn path) kv = false) ∧
    ∀ key : Str, (key, (none : Option ResolvedModule)) ∈ c.cache →
      strIncludes (splitKey key).2 (unresolvedStem csfn path) = true →
      getCanonicalFileName csfn (splitKey key).1 ∈
        (ModuleResolutionCache.deleteUnresolvedResolutionsFromCache csfn c path).pendingInvalidations := by
  constructor
  · intro kv
    unfold ModuleResolutionCache.deleteUnresolvedResolutionsFromCache
    rw [List.mem_filter]
    simp
  · intro key hmem hinc
    unfold ModuleResolutionCache.deleteUnresolvedResolutionsFromCache
    refine foldl_fsAdd_mem csfn _ _ _ _ hmem ?_
    unfold unresolvedMatches
    simpa using hinc

/-- A cache with two confirmed-unresolved entries, for the C6 witness. -/
def twoUnresolvedCache : ModuleResolutionCache :=
  { cache := [("a.ts:::./Foo".data, (none : Option ResolvedModule)),
              ("a.ts:::./Bar".data, (none : Option ResolvedModule))],
    pendingInvalidations := [] }

/-- Witness for C6 at the spec's concrete scenario: the entry for `./Foo` is
evicted (stem `Foo` of `/proj/Foo.native-ext` matches) and its containing file
is marked pending, while the unrelated `./Bar` entry survives. -/
theorem C6_unresolved_stem_eviction_witness :
    getCanonicalFileName true (splitKey "a.ts:::./Foo".data).1 ∈
      (ModuleResolutionCache.deleteUnresolvedResolutionsFromCache true twoUnresolvedCache
        "/proj/Foo.native-ext".data).pendingInvalidations ∧
    ("a.ts:::./Bar".data, (none : Option ResolvedModule)) ∈
      (ModuleResolutionCache.deleteUnresolvedResolutionsFromCache true twoUnresolvedCache
        "/proj/Foo.native-ext".data).cache :=
  ⟨(C6_unresolved_stem_eviction true twoUnresolvedCache "/proj/Foo.native-ext".data).2
      "a.ts:::./Foo".data (by decide) (by decide),
    ((C6_unresolved_stem_eviction true twoUnresolvedCache "/proj/Foo.native-ext".data).1
      ("a.ts:::./Bar".data, (none : Option ResolvedModule))).2 ⟨by decide, by decide⟩⟩

/-- C10: the stem is the portion of the last path segment before its first
dot, so for a path whose last segment begins with a dot the stem is empty, the
empty string is contained in every specifier, and the call therefore removes
every confirmed-unresolved entry from the cache. -/
theorem C10_dot_segment_clears_all_unresolved (csfn : Bool) (c : ModuleResolutionCache)
    (path : Str)
    (h : (getLastPartOfPath (getCanonicalFileName csfn path)).head? = some '.') :
    unresolvedStem csfn path = [] ∧
    ∀ kv : Str × Option ResolvedModule,
      kv ∈ (ModuleResolutionCache.deleteUnresolvedResolutionsFromCache csfn c path).cache →
        kv.2 ≠ none := by
  have hstem : unresolvedStem csfn path = [] := by
    unfold unresolvedStem
    cases hseg : getLastPartOfPath (getCanonicalFileName csfn path) with
    | nil => rw [hseg] at h; exact Option.noConfusion h
    | cons c0 t =>
      rw [hseg] at h
      have hc0 : c0 = '.' := by simpa using h
      subst hc0
      simp [List.takeWhile_cons]
  refine ⟨hstem, ?_⟩
  intro kv hkv hnone
  unfold ModuleResolutionCache.deleteUnresolvedResolutionsFromCache at hkv
  have h2 := (List.mem_filter.1 hkv).2
  rw [Bool.not_eq_true'] at h2
  rw [hstem] at h2
  unfold unresolvedMatches at h2
  rw [hnone] at h2
  have hinc : strIncludes (splitKey kv.1).2 [] = true := by
    unfold strIncludes
    simp
  rw [hinc] at h2
  exact Bool.noConfusion h2

/-- Witness for C10 at a concrete input: creating `/proj/.hidden` empties the
stem and flushes every unresolved entry. -/
theorem C10_dot_segment_clears_all_unresolved_witness :
    (getLastPartOfPath (getCanonicalFileName true "/proj/.hidden".data)).head? = some '.' ∧
    (unresolvedStem true "/proj/.hidden".data = [] ∧
    ∀ kv : Str × Option ResolvedModule,
      kv ∈ (ModuleResolutionCache.deleteUnresolvedResolutionsFromCache true twoUnresolvedCache
        "/proj/.hidden".data).cache → kv.2 ≠ none) :=
  ⟨by decide, C10_dot_segment_clears_all_unresolved true twoUnresolvedCache
    "/proj/.hidden".data (by decide)⟩

/-- Counterexample to C3 as stated: the key function is not injective on
`(containingFile, moduleSpecifier)` pairs — because virtual-extension
normalization is applied to the specifier, the two distinct specifiers
`./A.svelte.ts` and `./A.svelte` from the same containing file collapse to
the same composite key. -/
theorem C3_counterexample :
    getKey "./A.svelte.ts".data "f.ts".data = getKey "./A.svelte".data "f.ts".data ∧
    ("./A.svelte.ts".data, "f.ts".data) ≠ ("./A.svelte".data, "f.ts".data) := by
  decide

/-- C3 as amended: the key is the plain concatenation of the containing file,
the reserved separator, and the virtual-extension-normalized specifier; it is
injective on pairs whose containing file contains no separator character `':'`
and whose specifier is unchanged by virtual-extension normalization.
(Distinct specifiers that normalize to the same path collide, as the
counterexample shows.) -/
theorem C3_amended_key_injective (m1 m2 cf1 cf2 : Str)
    (hc1 : ':' ∉ cf1) (hc2 : ':' ∉ cf2)
    (hm1 : ensureRealSvelteFilePath m1 = m1) (hm2 : ensureRealSvelteFilePath m2 = m2)
    (heq : getKey m1 cf1 = getKey m2 cf2) : cf1 = cf2 ∧ m1 = m2 := by
  unfold getKey at heq
  rw [hm1, hm2] at heq
  have h1 := @breakOn_sep_append cf1 m1 hc1
  have h2 := @breakOn_sep_append cf2 m2 hc2
  rw [heq] at h1
  rw [h2] at h1
  have h3 := Option.some.inj h1
  exact ⟨(congrArg Prod.fst h3).symm, (congrArg Prod.snd h3).symm⟩

/-- Witness for the amended C3 at concrete inputs. -/
theorem C3_amended_key_injective_witness :
    "a.ts".data = "a.ts".data ∧ "./b".data = "./b".data :=
  C3_amended_key_injective "./b".data "./b".data "a.ts".data "a.ts".data
    (by decide) (by decide) (by decide) (by decide) rfl

/-- C8: `resolveModuleNames` returns one outcome per input specifier, in input
order: the result has the same length as the input, and its `i`-th element is
the outcome of resolving the `i`-th specifier in the state reached after the
first `i` specifiers — whether that resolution was a cache hit or fresh. -/
theorem C8_order_preserved (env : LoaderEnv) (csfn : Bool) (names : List Str)
    (cf : Str) (st : LoaderState) :
    (resolveModuleNames env csfn names cf st).1.length = names.length ∧
    ∀ i : Nat, (resolveModuleNames env csfn names cf st).1[i]? =
      (names[i]?).map (fun n =>
        (resolveOne env csfn cf (resolveModuleNames env csfn (names.take i) cf st).2 n).1) := by
  induction names generalizing st with
  | nil =>
    refine ⟨rfl, ?_⟩
    intro i
    simp [resolveModuleNames]
  | cons n rest ih =>
    refine ⟨?_, ?_⟩
    · show ((resolveOne env csfn cf st n).1 ::
          (resolveModuleNames env csfn rest cf (resolveOne env csfn cf st n).2).1).length =
        (n :: rest).length
      simp [(ih (resolveOne env csfn cf st n).2).1]
    · intro i
      cases i with
      | zero =>
        simp only [resolveModuleNames, List.getElem?_cons_zero, Option.map_some', List.take_zero]
      | succ j =>
        simp only [resolveModuleNames, List.getElem?_cons_succ, List.take_succ_cons]
        rw [(ih (resolveOne env csfn cf st n).2).2 j]

theorem get_some_mem {csfn : Bool} {c : ModuleResolutionCache} {m cf : Str}
    {rm : ResolvedModule} (h : ModuleResolutionCache.get csfn c m cf = some rm) :
    (fmKey csfn m cf, some rm) ∈ c.cache := by
  unfold ModuleResolutionCache.get at h
  cases hl : fmLookup c.cache (fmKey csfn m cf) with
  | none => rw [hl] at h; exact Option.noConfusion h
  | some v =>
    rw [hl] at h
    have h2 : v = some rm := h
    rw [h2] at hl
    exact mem_of_fmLookup hl

/-- The C2 invariant: no cached defined record resolves to a Virtual Path (a
disguised path whose real counterpart exists). -/
def noVirtualRecords (env : LoaderEnv) (c : ModuleResolutionCache) : Prop :=
  ∀ key : Str, ∀ rm : ResolvedModule, (key, some rm) ∈ c.cache →
    isVirtualPath env rm.resolvedFileName = false

theorem resolveOne_no_virtual (env : LoaderEnv) (csfn : Bool) (cf : Str)
    (st : LoaderState) (m : Str) (hc : noVirtualRecords env st.moduleCache) :
    (∀ rm : ResolvedModule, (resolveOne env csfn cf st m).1 = some rm →
      isVirtualPath env rm.resolvedFileName = false) ∧
    noVirtualRecords env (resolveOne env csfn cf st m).2.moduleCache := by
  unfold resolveOne
  by_cases hh : ModuleResolutionCache.has csfn st.moduleCache m cf = true
  · rw [if_pos hh]
    refine ⟨?_, hc⟩
    intro rm hget
    exact hc _ _ (get_some_mem hget)
  · rw [if_neg hh]
    refine ⟨?_, ?_⟩
    · intro rm h
      exact resolveModuleName_not_virtualPath env m cf h
    · intro key rm hmem
      rw [show (ModuleResolutionCache.set csfn
            (cacheResolutionWithFailedLookup st (resolveModuleName env m cf) cf).moduleCache
            m cf (resolveModuleName env m cf).resolvedModule).cache =
          fmSet (cacheResolutionWithFailedLookup st (resolveModuleName env m cf) cf).moduleCache.cache
            (fmKey csfn m cf) (resolveModuleName env m cf).resolvedModule from rfl,
        cacheResolutionWithFailedLookup_moduleCache] at hmem
      rcases mem_fmSet hmem with h1 | h1
      · exact hc _ _ h1
      · have h2 : (resolveModuleName env m cf).resolvedModule = some rm :=
          (congrArg Prod.snd h1).symm
        exact resolveModuleName_not_virtualPath env m cf h2

/-- C2: no call to `resolveModuleNames` ever returns (or leaves cached) a
resolved-module record whose `resolvedFileName` is a Virtual Path: whenever
the host resolves to a virtual path whose real counterpart exists, the
returned and cached record carries the real path instead (and a disguised
path without a real counterpart is, by the spec's definition, not a Virtual
Path). -/
theorem C2_no_virtual_resolved_records (env : LoaderEnv) (csfn : Bool)
    (names : List Str) (cf : Str) (st : LoaderState)
    (hc : noVirtualRecords env st.moduleCache) :
    (∀ r : Option ResolvedModule, r ∈ (resolveModuleNames env csfn names cf st).1 →
      ∀ rm : ResolvedModule, r = some rm → isVirtualPath env rm.resolvedFileName = false) ∧
    noVirtualRecords env (resolveModuleNames env csfn names cf st).2.moduleCache := by
  induction names generalizing st with
  | nil =>
    refine ⟨?_, hc⟩
    intro r hr
    exact absurd hr (List.not_mem_nil _)
  | cons n rest ih =>
    have h1 := resolveOne_no_virtual env csfn cf st n hc
    have h2 := ih (resolveOne env csfn cf st n).2 h1.2
    refine ⟨?_, h2.2⟩
    intro r hr rm hrm
    rcases List.mem_cons.1 hr with hcase | hcase
    · exact h1.1 rm (hcase ▸ hrm)
    · exact h2.1 r hcase rm hrm

/-- An environment whose host resolves everything to a virtual svelte path
whose real counterpart exists, exercising the remapping branch. -/
def remapEnv : LoaderEnv :=
  { host := fun _ _ =>
      { resolvedModule := some ⟨"/p/C.svelte.ts".data, ".ts".data, false⟩,
        failedLookupLocations := none, files := none },
    svelteFileExists := fun p => decide (p = "/p/C.svelte".data),
    getExtensionOfSnapshot := fun _ => ".tsx".data }

/-- Witness for C2 at a concrete input: the host hit on the virtual path
`/p/C.svelte.ts` is returned remapped to the real `/p/C.svelte`, and the
conclusion of the invariant theorem holds for the call. -/
theorem C2_no_virtual_resolved_records_witness :
    (resolveModuleNames remapEnv true ["./C".data] "a.ts".data LoaderState.empty).1 =
      [some ⟨"/p/C.svelte".data, ".tsx".data, false⟩] ∧
    ((∀ r : Option ResolvedModule,
      r ∈ (resolveModuleNames remapEnv true ["./C".data] "a.ts".data LoaderState.empty).1 →
      ∀ rm : ResolvedModule, r = some rm → isVirtualPath remapEnv rm.resolvedFileName = false) ∧
    noVirtualRecords remapEnv
      (resolveModuleNames remapEnv true ["./C".data] "a.ts".data LoaderState.empty).2.moduleCache) :=
  ⟨by decide, C2_no_virtual_resolved_records remapEnv true ["./C".data] "a.ts".data
    LoaderState.empty (fun key rm h => absurd h (List.not_mem_nil _))⟩

section InvalidateLemmas

theorem invalidateStep_cache_mem {csfn : Bool} {pending : List Str}
    {acc : ModuleResolutionCache × List Str} {r : FailedLookupRecord}
    {kv : Str × Option ResolvedModule}
    (h : kv ∈ (invalidateStep csfn pending acc r).1.cache) : kv ∈ acc.1.cache := by
  unfold invalidateStep at h
  split at h
  · split at h
    · exact (mem_delete_cache h).1
    · exact h
  · exact h

theorem foldl_invalidateStep_cache_mem {csfn : Bool} {pending : List Str}
    {l : List FailedLookupRecord} {acc : ModuleResolutionCache × List Str}
    {kv : Str × Option ResolvedModule}
    (h : kv ∈ (l.foldl (invalidateStep csfn pending) acc).1.cache) : kv ∈ acc.1.cache := by
  induction l generalizing acc with
  | nil => exact h
  | cons r rest ih =>
    simp only [List.foldl_cons] at h
    exact invalidateStep_cache_mem (ih h)

theorem invalidateStep_snd_mono {csfn : Bool} {pending : List Str}
    {acc : ModuleResolutionCache × List Str} {r : FailedLookupRecord} {x : Str}
    (h : x ∈ acc.2) : x ∈ (invalidateStep csfn pending acc r).2 := by
  unfold invalidateStep
  split
  · split
    · exact foldl_fsAdd_plain_preserve csfn _ _ h
    · exact h
  · exact h

theorem foldl_invalidateStep_snd_mono {csfn : Bool} {pending : List Str}
    {l : List FailedLookupRecord} {acc : ModuleResolutionCache × List Str} {x : Str}
    (h : x ∈ acc.2) : x ∈ (l.foldl (invalidateStep csfn pending) acc).2 := by
  induction l generalizing acc with
  | nil => exact h
  | cons r rest ih =>
    simp only [List.foldl_cons]
    exact ih (invalidateStep_snd_mono h)

end InvalidateLemmas

/-- C4: `invalidateFailedLocationResolution()` sweeps every tracked record;
for each one whose resolved module (together with its `files` set and probed
locations) is defined and whose probed locations intersect the pending
failed-location set, every cache entry whose defined value resolved to that
record's path is gone from the resulting cache and every owning containing
file is marked invalidated; afterwards the pending failed-location set is
drained. -/
theorem C4_failed_location_sweep (csfn : Bool) (st : LoaderState) :
    (invalidateFailedLocationResolution csfn st).pendingFailedLocationCheck = [] ∧
    ∀ r : FailedLookupRecord, r ∈ st.resolutionWithFailedLookup →
      ∀ (rm : ResolvedModule) (fs locs : List Str),
        r.resolvedModule = some rm → r.files = some fs → r.failedLookupLocations = some locs →
        locs.any (fun loc => fsHas csfn st.pendingFailedLocationCheck loc) = true →
        (∀ (key : Str) (v : ResolvedModule),
          (key, some v) ∈ (invalidateFailedLocationResolution csfn st).moduleCache.cache →
          getCanonicalFileName csfn v.resolvedFileName ≠
            getCanonicalFileName csfn rm.resolvedFileName) ∧
        ∀ f : Str, f ∈ fs →
          fsHas csfn (invalidateFailedLocationResolution csfn st).failedLocationInvalidated f = true := by
  refine ⟨rfl, ?_⟩
  intro r hr rm fs locs hrm hfs hlocs hany
  obtain ⟨l1, l2, hsplit⟩ := List.append_of_mem hr
  have hstep : ∀ acc : ModuleResolutionCache × List Str,
      invalidateStep csfn st.pendingFailedLocationCheck acc r =
        (ModuleResolutionCache.delete csfn acc.1 rm.resolvedFileName,
          fs.foldl (fun s f => fsAdd csfn s f) acc.2) := by
    intro acc
    unfold invalidateStep
    rw [hrm, hfs, hlocs]
    simp [hany]
  have hfold : st.resolutionWithFailedLookup.foldl
      (invalidateStep csfn st.pendingFailedLocationCheck)
      (st.moduleCache, st.failedLocationInvalidated) =
      l2.foldl (invalidateStep csfn st.pendingFailedLocationCheck)
        (ModuleResolutionCache.delete csfn
            (l1.foldl (invalidateStep csfn st.pendingFailedLocationCheck)
              (st.moduleCache, st.failedLocationInvalidated)).1 rm.resolvedFileName,
          fs.foldl (fun s f => fsAdd csfn s f)
            (l1.foldl (invalidateStep csfn st.pendingFailedLocationCheck)
              (st.moduleCache, st.failedLocationInvalidated)).2) := by
    rw [hsplit, List.foldl_append, List.foldl_cons, hstep]
  constructor
  · intro key v hmem
    have hmem2 : (key, some v) ∈ (st.resolutionWithFailedLookup.foldl
        (invalidateStep csfn st.pendingFailedLocationCheck)
        (st.moduleCache, st.failedLocationInvalidated)).1.cache := hmem
    rw [hfold] at hmem2
    have hmem3 := foldl_invalidateStep_cache_mem hmem2
    have h4 := (mem_delete_cache hmem3).2
    unfold deleteMatches at h4
    simpa using h4
  · intro f hf
    have h5 : getCanonicalFileName csfn f ∈ (st.resolutionWithFailedLookup.foldl
        (invalidateStep csfn st.pendingFailedLocationCheck)
        (st.moduleCache, st.failedLocationInvalidated)).2 := by
      rw [hfold]
      exact foldl_invalidateStep_snd_mono (foldl_fsAdd_plain_mem csfn _ _ hf)
    unfold invalidateFailedLocationResolution fsHas
    simpa using h5

/-- A loader state with one resolved cache entry and one tracked failed-lookup
record whose probed location is pending, for the C4 witness. -/
def sweepState : LoaderState :=
  { moduleCache :=
      { cache := [("a.ts:::./x".data, some ⟨"/p/x.ts".data, ".ts".data, false⟩)],
        pendingInvalidations := [] },
    resolutionWithFailedLookup :=
      [{ resolvedModule := some ⟨"/p/x.ts".data, ".ts".data, false⟩,
         failedLookupLocations := some ["/p/l.ts".data],
         files := some ["a.ts".data] }],
    failedLocationInvalidated := [],
    pendingFailedLocationCheck := ["/p/l.ts".data] }

/-- Witness for C4 at a concrete input. -/
theorem C4_failed_location_sweep_witness :
    (invalidateFailedLocationResolution true sweepState).pendingFailedLocationCheck = [] ∧
    ((∀ (key : Str) (v : ResolvedModule),
        (key, some v) ∈ (invalidateFailedLocationResolution true sweepState).moduleCache.cache →
        getCanonicalFileName true v.resolvedFileName ≠
          getCanonicalFileName true ("/p/x.ts".data : Str)) ∧
      ∀ f : Str, f ∈ (["a.ts".data] : List Str) →
        fsHas true (invalidateFailedLocationResolution true sweepState).failedLocationInvalidated f = true) :=
  ⟨(C4_failed_location_sweep true sweepState).1,
    (C4_failed_location_sweep true sweepState).2
      { resolvedModule := some ⟨"/p/x.ts".data, ".ts".data, false⟩,
        failedLookupLocations := some ["/p/l.ts".data],
        files := some ["a.ts".data] }
      (by decide) ⟨"/p/x.ts".data, ".ts".data, false⟩ ["a.ts".data] ["/p/l.ts".data]
      rfl rfl rfl (by decide)⟩

section InvalidatePreservation

theorem invalidateStep_lookup_none {csfn : Bool} {pending : List Str}
    {acc : ModuleResolutionCache × List Str} {r : FailedLookupRecord} {k : Str}
    (h : fmLookup acc.1.cache k = none) :
    fmLookup (invalidateStep csfn pending acc r).1.cache k = none := by
  unfold invalidateStep
  split
  · split
    · exact fmLookup_delete_none h
    · exact h
  · exact h

theorem foldl_invalidateStep_lookup_none {csfn : Bool} {pending : List Str}
    {l : List FailedLookupRecord} {acc : ModuleResolutionCache × List Str} {k : Str}
    (h : fmLookup acc.1.cache k = none) :
    fmLookup ((l.foldl (invalidateStep csfn pending) acc).1).cache k = none := by
  induction l generalizing acc with
  | nil => exact h
  | cons r rest ih =>
    simp only [List.foldl_cons]
    exact ih (invalidateStep_lookup_none h)

theorem invalidateStep_pendingInvalidations_mono {csfn : Bool} {pending : List Str}
    {acc : ModuleResolutionCache × List Str} {r : FailedLookupRecord} {x : Str}
    (h : x ∈ acc.1.pendingInvalidations) :
    x ∈ (invalidateStep csfn pending acc r).1.pendingInvalidations := by
  unfold invalidateStep
  split
  · split
    · exact foldl_fsAdd_preserve csfn _ _ _ _ h
    · exact h
  · exact h

theorem foldl_invalidateStep_pendingInvalidations_mono {csfn : Bool} {pending : List Str}
    {l : List FailedLookupRecord} {acc : ModuleResolutionCache × List Str} {x : Str}
    (h : x ∈ acc.1.pendingInvalidations) :
    x ∈ ((l.foldl (invalidateStep csfn pending) acc).1).pendingInvalidations := by
  induction l generalizing acc with
  | nil => exact h
  | cons r rest ih =>
    simp only [List.foldl_cons]
    exact ih (invalidateStep_pendingInvalidations_mono h)

end InvalidatePreservation

/-- An environment whose host fails to resolve anything, probing the candidate
location `/proj/node_modules/foo/index.js` on the way. -/
def c1Env : LoaderEnv :=
  { host := fun _ _ =>
      { resolvedModule := none,
        failedLookupLocations := some ["/proj/node_modules/foo/index.js".data],
        files := none },
    svelteFileExists := fun _ => false,
    getExtensionOfSnapshot := fun _ => [] }

/-- Counterexample to C1 as stated: resolving `foo` from `a.ts` fails while
probing `/proj/node_modules/foo/index.js`; that location is then marked
pending via `deleteUnresolvedResolutionsFromCache` and
`invalidateFailedLocationResolution()` runs — yet the cache entry for
`(foo, a.ts)` is still present (the stem `index` does not occur in the
specifier, and the failed-location sweep skips records with no resolved
module) and `a.ts` is not reported as invalidated. -/
theorem C1_counterexample :
    (c1Env.host "foo".data "a.ts".data).resolvedModule = none ∧
    "/proj/node_modules/foo/index.js".data ∈
      (c1Env.host "foo".data "a.ts".data).failedLookupLocations.getD [] ∧
    ModuleResolutionCache.has true
      (invalidateFailedLocationResolution true
        (deleteUnresolvedResolutionsFromCache true
          (resolveModuleNames c1Env true ["foo".data] "a.ts".data LoaderState.empty).2
          "/proj/node_modules/foo/index.js".data)).moduleCache
      "foo".data "a.ts".data = true ∧
    mightHaveInvalidatedResolutions true
      (invalidateFailedLocationResolution true
        (deleteUnresolvedResolutionsFromCache true
          (resolveModuleNames c1Env true ["foo".data] "a.ts".data LoaderState.empty).2
          "/proj/node_modules/foo/index.js".data))
      "a.ts".data = false := by
  decide

/-- C1 as amended: when a resolution of specifier `m` from `cf` fails while
probing a candidate location `L`, and additionally the (normalized, stored)
specifier text contains the stem of `L`, then after marking `L` pending via
`deleteUnresolvedResolutionsFromCache` and running
`invalidateFailedLocationResolution()`, the cache entry for `(m, cf)` is
evicted (by the stem heuristic of `deleteUnresolvedResolutionsFromCache`; the
failed-location sweep itself skips resolutions with no resolved module) and
the case-normalized containing file is reported by
`mightHaveInvalidatedResolutions`. The separator-hygiene hypotheses keep the
key components recoverable. -/
theorem C1_amended_failed_resolution_eviction (env : LoaderEnv) (csfn : Bool)
    (st : LoaderState) (m cf L : Str)
    (hfail : (env.host m cf).resolvedModule = none)
    (hprobe : L ∈ (env.host m cf).failedLookupLocations.getD [])
    (hmiss : ModuleResolutionCache.has csfn st.moduleCache m cf = false)
    (hcf : ':' ∉ getCanonicalFileName csfn cf)
    (hm : ':' ∉ getCanonicalFileName csfn (ensureRealSvelteFilePath m))
    (hstem : strIncludes (getCanonicalFileName csfn (ensureRealSvelteFilePath m))
      (unresolvedStem csfn L) = true) :
    ModuleResolutionCache.has csfn
      (invalidateFailedLocationResolution csfn
        (deleteUnresolvedResolutionsFromCache csfn
          (resolveModuleNames env csfn [m] cf st).2 L)).moduleCache m cf = false ∧
    mightHaveInvalidatedResolutions csfn
      (invalidateFailedLocationResolution csfn
        (deleteUnresolvedResolutionsFromCache csfn
          (resolveModuleNames env csfn [m] cf st).2 L))
      (getCanonicalFileName csfn cf) = true := by
  have hsplitK : splitKey (fmKey csfn m cf) =
      (getCanonicalFileName csfn cf, getCanonicalFileName csfn (ensureRealSvelteFilePath m)) := by
    rw [fmKey_decompose]
    exact splitKey_append hcf hm
  have hlookup : fmLookup st.moduleCache.cache (fmKey csfn m cf) = none := by
    unfold ModuleResolutionCache.has at hmiss
    cases hl : fmLookup st.moduleCache.cache (fmKey csfn m cf) with
    | none => rfl
    | some v => rw [hl] at hmiss; exact Bool.noConfusion hmiss
  have hrmn : (resolveModuleName env m cf).resolvedModule = none := by
    rw [resolveModuleName_of_host_none env m cf hfail, hfail]
  have hmc1 : (resolveModuleNames env csfn [m] cf st).2.moduleCache.cache =
      st.moduleCache.cache ++ [(fmKey csfn m cf, none)] := by
    rw [resolveModuleNames_single]
    rw [resolveOne_of_miss env csfn cf st m hmiss, hrmn]
    unfold ModuleResolutionCache.set
    exact fmSet_eq_append_of_lookup_none _ hlookup
  have huM : unresolvedMatches (unresolvedStem csfn L)
      ((fmKey csfn m cf, (none : Option ResolvedModule))) = true := by
    unfold unresolvedMatches
    simp [hsplitK, hstem]
  have hmemK : (fmKey csfn m cf, (none : Option ResolvedModule)) ∈
      (resolveModuleNames env csfn [m] cf st).2.moduleCache.cache := by
    rw [hmc1]
    exact List.mem_append_right _ (List.mem_singleton.2 rfl)
  constructor
  · show ((fmLookup (invalidateFailedLocationResolution csfn
      (deleteUnresolvedResolutionsFromCache csfn
        (resolveModuleNames env csfn [m] cf st).2 L)).moduleCache.cache
      (fmKey csfn m cf))).isSome = false
    have h2 : fmLookup (deleteUnresolvedResolutionsFromCache csfn
        (resolveModuleNames env csfn [m] cf st).2 L).moduleCache.cache
        (fmKey csfn m cf) = none := by
      show fmLookup (((resolveModuleNames env csfn [m] cf st).2.moduleCache.cache).filter
        (fun kv => !(unresolvedMatches (unresolvedStem csfn L) kv))) (fmKey csfn m cf) = none
      rw [hmc1, List.filter_append]
      have hsing : ([(fmKey csfn m cf, (none : Option ResolvedModule))].filter
          (fun kv => !(unresolvedMatches (unresolvedStem csfn L) kv))) = [] := by
        simp [huM]
      rw [hsing, List.append_nil]
      exact fmLookup_filter_none _ hlookup
    have h3 := @foldl_invalidateStep_lookup_none csfn
      ((deleteUnresolvedResolutionsFromCache csfn
          (resolveModuleNames env csfn [m] cf st).2 L).pendingFailedLocationCheck)
      ((deleteUnresolvedResolutionsFromCache csfn
          (resolveModuleNames env csfn [m] cf st).2 L).resolutionWithFailedLookup)
      ((deleteUnresolvedResolutionsFromCache csfn
          (resolveModuleNames env csfn [m] cf st).2 L).moduleCache,
        (deleteUnresolvedResolutionsFromCache csfn
          (resolveModuleNames env csfn [m] cf st).2 L).failedLocationInvalidated)
      (fmKey csfn m cf) h2
    have h3b : fmLookup (invalidateFailedLocationResolution csfn
        (deleteUnresolvedResolutionsFromCache csfn
          (resolveModuleNames env csfn [m] cf st).2 L)).moduleCache.cache
        (fmKey csfn m cf) = none := h3
    rw [h3b]
    rfl
  · have h4 : getCanonicalFileName csfn (getCanonicalFileName csfn cf) ∈
        (deleteUnresolvedResolutionsFromCache csfn
          (resolveModuleNames env csfn [m] cf st).2 L).moduleCache.pendingInvalidations := by
      show getCanonicalFileName csfn (getCanonicalFileName csfn cf) ∈
        ((resolveModuleNames env csfn [m] cf st).2.moduleCache.cache).foldl
          (fun s kv => if unresolvedMatches (unresolvedStem csfn L) kv
            then fsAdd csfn s (splitKey kv.1).1 else s)
          (resolveModuleNames env csfn [m] cf st).2.moduleCache.pendingInvalidations
      have h5 := foldl_fsAdd_mem csfn (unresolvedMatches (unresolvedStem csfn L))
        (fun kv => (splitKey kv.1).1)
        ((resolveModuleNames env csfn [m] cf st).2.moduleCache.cache)
        ((resolveModuleNames env csfn [m] cf st).2.moduleCache.pendingInvalidations)
        hmemK huM
      have h5b : getCanonicalFileName csfn (splitKey (fmKey csfn m cf)).1 ∈
          ((resolveModuleNames env csfn [m] cf st).2.moduleCache.cache).foldl
            (fun s kv => if unresolvedMatches (unresolvedStem csfn L) kv
              then fsAdd csfn s (splitKey kv.1).1 else s)
            (resolveModuleNames env csfn [m] cf st).2.moduleCache.pendingInvalidations := h5
      rw [hsplitK] at h5b
      exact h5b
    have h6 := @foldl_invalidateStep_pendingInvalidations_mono csfn
      ((deleteUnresolvedResolutionsFromCache csfn
          (resolveModuleNames env csfn [m] cf st).2 L).pendingFailedLocationCheck)
      ((deleteUnresolvedResolutionsFromCache csfn
          (resolveModuleNames env csfn [m] cf st).2 L).resolutionWithFailedLookup)
      ((deleteUnresolvedResolutionsFromCache csfn
          (resolveModuleNames env csfn [m] cf st).2 L).moduleCache,
        (deleteUnresolvedResolutionsFromCache csfn
          (resolveModuleNames env csfn [m] cf st).2 L).failedLocationInvalidated)
      (getCanonicalFileName csfn (getCanonicalFileName csfn cf)) h4
    unfold mightHaveInvalidatedResolutions ModuleResolutionCache.oneOfResolvedModuleChanged fsHas
    simp only [Bool.or_eq_true, decide_eq_true_eq]
    exact Or.inl h6

/-- An environment whose host fails to resolve anything, probing the candidate
location `/proj/Widget.ext` on the way. -/
def widgetEnv : LoaderEnv :=
  { host := fun _ _ =>
      { resolvedModule := none,
        failedLookupLocations := some ["/proj/Widget.ext".data],
        files := none },
    svelteFileExists := fun _ => false,
    getExtensionOfSnapshot := fun _ => [] }

/-- Witness for the amended C1 at the spec's concrete scenario (`./Widget`
from `a.ts`, probing `/proj/Widget.ext`, whose stem `Widget` occurs in the
specifier). -/
theorem C1_amended_failed_resolution_eviction_witness :
    (widgetEnv.host "./Widget".data "a.ts".data).resolvedModule = none ∧
    "/proj/Widget.ext".data ∈
      (widgetEnv.host "./Widget".data "a.ts".data).failedLookupLocations.getD [] ∧
    (ModuleResolutionCache.has true
      (invalidateFailedLocationResolution true
        (deleteUnresolvedResolutionsFromCache true
          (resolveModuleNames widgetEnv true ["./Widget".data] "a.ts".data LoaderState.empty).2
          "/proj/Widget.ext".data)).moduleCache "./Widget".data "a.ts".data = false ∧
    mightHaveInvalidatedResolutions true
      (invalidateFailedLocationResolution true
        (deleteUnresolvedResolutionsFromCache true
          (resolveModuleNames widgetEnv true ["./Widget".data] "a.ts".data LoaderState.empty).2
          "/proj/Widget.ext".data))
      (getCanonicalFileName true "a.ts".data) = true) :=
  ⟨rfl, by decide,
    C1_amended_failed_resolution_eviction widgetEnv true LoaderState.empty
      "./Widget".data "a.ts".data "/proj/Widget.ext".data
      rfl (by decide) rfl (by decide) (by decide) (by decide)⟩
